import Mathlib

/-!
Verification development for the beacon-monitor repository.

The repository is a TypeScript poll loop that tracks Ethereum validator
activation: it persists a JSON object mapping validator public keys to
beacon-chain status strings (`validators.json`), polls a beacon node for
the current status of the pending keys, reconciles the fetched statuses
into the store, detects keys that newly became `active_ongoing`, registers
them, and exits when nothing is pending any more.

This file gives a shallow embedding of the repository's data model and
operations.  JavaScript objects used as string-keyed maps are embedded as
insertion-ordered association lists `List (String × String)`; JS object
assignment, lookup, `Object.keys` and `Object.entries` are embedded by
`objSet`, `objLookup`, `objKeys` and the list itself.  Fallible operations
are embedded with `Except`/`Option`.
-/

namespace BeaconMonitor

/-- A JavaScript object used as a map from validator pubkey to status
string, in insertion order (the `StoredState` interface of `types.ts`).
JS objects cannot contain a key twice, so all states produced by the
program have pairwise distinct keys. -/
abbrev StoredState := List (String × String)

/-- JS property lookup `m[k]`: value of the first entry with key `k`,
`none` when the key is absent (JS `undefined`). -/
def objLookup : StoredState → String → Option String
  | [], _ => none
  | p :: ps, k => if p.1 = k then some p.2 else objLookup ps k

/-- JS property assignment `m[k] = v`: replace the value of the first
entry with key `k`, or append a new entry when the key is absent.  On
states with distinct keys (the only ones a JS object can represent) this
is exactly JS object assignment. -/
def objSet : StoredState → String → String → StoredState
  | [], k, v => [(k, v)]
  | p :: ps, k, v => if p.1 = k then (k, v) :: ps else p :: objSet ps k v

/-- JS `Object.keys m` (also `m.hasOwnProperty k` via membership). -/
def objKeys (m : StoredState) : List String := m.map Prod.fst

/-- JS `m.hasOwnProperty k`. -/
def objHas (m : StoredState) (k : String) : Bool := m.any (fun p => p.1 = k)

/-- The nine values of the `Status` union type in `types.ts`. -/
def statusStrings : List String :=
  ["pending_initialized", "pending_queued", "active_ongoing", "active_exiting",
   "active_slashed", "exited_unslashed", "exited_slashed",
   "withdrawal_possible", "withdrawal_done"]

/-- The `validator` sub-object of one entry of the beacon response
(`types.ts`), restricted to the fields the program reads. -/
structure ValidatorInfo where
  pubkey : String
  activation_epoch : String
deriving DecidableEq

/-- One element of `response.data` in the beacon response: a status
string plus an optional `validator` object (`item.validator` may be
absent, and `item.validator.pubkey` may be the empty string — both are
falsy in JS). -/
structure ValidatorItem where
  status : String
  validator : Option ValidatorInfo
deriving DecidableEq

/-- The beacon API response shape (`ValidatorResponse` in `types.ts`).
`data = none` embeds a missing or non-array `data` field. -/
structure ValidatorResponse where
  execution_optimistic : Bool
  data : Option (List ValidatorItem)
deriving DecidableEq

/-- The `(pubkey, status)` pair recorded for one response item, or `none`
when the item is skipped by the `!item.validator || !item.validator.pubkey`
guard of `processFetchedValidators` (storage.ts). -/
def extractEntry (item : ValidatorItem) : Option (String × String) :=
  match item.validator with
  | none => none
  | some v => if v.pubkey = "" then none else some (v.pubkey, item.status)

/-- `processFetchedValidators` from storage.ts: if `response.data` is
missing or not an array, return the stored state unchanged (after a
warning log); otherwise copy the stored state and overwrite the status of
each reported pubkey with the fetched status.  Logging (the per-activation
`console.log` and the `parseInt` of `activation_epoch` that only feeds
that log) has no effect on the returned state and is not modelled. -/
def processFetchedValidators (response : ValidatorResponse)
    (storedState : StoredState) : StoredState :=
  match response.data with
  | none => storedState
  | some data =>
      data.foldl
        (fun acc item =>
          match extractEntry item with
          | none => acc
          | some pv => objSet acc pv.1 pv.2)
        storedState

/-- `filterPendingOnly` from storage.ts: the pubkeys whose stored status
is not `active_ongoing`. -/
def filterPendingOnly (storedState : StoredState) : List String :=
  (storedState.filter (fun p => p.2 ≠ "active_ongoing")).map Prod.fst

/-- The pubkeys that `processFetchedValidators` would record from a
response: those of the items that pass the validator/pubkey guard. -/
def fetchedEntries (data : List ValidatorItem) : List (String × String) :=
  data.filterMap extractEntry

/-- All pubkeys reported (and not skipped) by a response. -/
def fetchedPubkeys (response : ValidatorResponse) : List String :=
  match response.data with
  | none => []
  | some data => (fetchedEntries data).map Prod.fst

theorem objLookup_objSet (m : StoredState) (k v k' : String) :
    objLookup (objSet m k v) k' = if k' = k then some v else objLookup m k' := by
  induction m with
  | nil =>
      by_cases h : k' = k
      · simp [objSet, objLookup, h]
      · have hk : ¬ k = k' := fun h2 => h h2.symm
        simp [objSet, objLookup, h, hk]
  | cons p ps ih =>
      by_cases hp : p.1 = k
      · by_cases h : k' = k
        · simp [objSet, objLookup, hp, h]
        · have hk : ¬ k = k' := fun h2 => h h2.symm
          simp [objSet, objLookup, hp, h, hk]
      · by_cases h : p.1 = k'
        · have hk : ¬ k' = k := fun h2 => hp (by rw [h, h2])
          simp [objSet, objLookup, hp, h, hk]
        · simp [objSet, objLookup, hp, h, ih]

theorem objLookup_isSome_of_objHas (m : StoredState) (k : String)
    (h : objHas m k = true) : (objLookup m k).isSome = true := by
  induction m with
  | nil => simp [objHas] at h
  | cons p ps ih =>
      by_cases hp : p.1 = k
      · simp [objLookup, hp]
      · simp [objHas, hp] at h
        simpa [objLookup, hp] using ih (by simpa [objHas] using h)

theorem objHas_of_objLookup_isSome (m : StoredState) (k : String)
    (h : (objLookup m k).isSome = true) : objHas m k = true := by
  induction m with
  | nil => simp [objLookup] at h
  | cons p ps ih =>
      by_cases hp : p.1 = k
      · simp [objHas, hp]
      · simp [objLookup, hp] at h
        simpa [objHas, hp] using ih h

/-- First-wins combination of two lookups (used to state the key-by-key
characterization of reconciliation). -/
def orLookup (a b : Option String) : Option String :=
  match a with
  | some v => some v
  | none => b

theorem orLookup_some (v : String) (b : Option String) :
    orLookup (some v) b = some v := rfl

theorem orLookup_none (b : Option String) : orLookup none b = b := rfl

theorem objLookup_append (l₁ l₂ : StoredState) (k : String) :
    objLookup (l₁ ++ l₂) k = orLookup (objLookup l₁ k) (objLookup l₂ k) := by
  induction l₁ with
  | nil => simp [objLookup, orLookup_none]
  | cons q qs ih =>
      by_cases hq : q.1 = k
      · simp [objLookup, hq, orLookup_some]
      · simp only [List.cons_append, objLookup, if_neg hq]
        exact ih

/-- The reconciled status of a key: the status of the last response item
reporting that key when there is one, otherwise the previously stored
status.  This characterizes `processFetchedValidators` key by key. -/
theorem objLookup_processFetchedValidators (b : Bool) (data : List ValidatorItem)
    (storedState : StoredState) (k : String) :
    objLookup (processFetchedValidators ⟨b, some data⟩ storedState) k =
      orLookup (objLookup (fetchedEntries data).reverse k) (objLookup storedState k) := by
  induction data generalizing storedState with
  | nil => simp [processFetchedValidators, fetchedEntries, objLookup, orLookup_none]
  | cons item rest ih =>
      cases he : extractEntry item with
      | none =>
          have hproc :
              processFetchedValidators ⟨b, some (item :: rest)⟩ storedState =
                processFetchedValidators ⟨b, some rest⟩ storedState := by
            simp [processFetchedValidators, he]
          have hent : fetchedEntries (item :: rest) = fetchedEntries rest := by
            simp [fetchedEntries, List.filterMap_cons, he]
          rw [hproc, hent, ih]
      | some pv =>
          have hproc :
              processFetchedValidators ⟨b, some (item :: rest)⟩ storedState =
                processFetchedValidators ⟨b, some rest⟩ (objSet storedState pv.1 pv.2) := by
            simp [processFetchedValidators, he]
          have hent : fetchedEntries (item :: rest) = pv :: fetchedEntries rest := by
            simp [fetchedEntries, List.filterMap_cons, he]
          rw [hproc, ih, hent, List.reverse_cons, objLookup_append]
          cases hrev : objLookup (fetchedEntries rest).reverse k with
          | some v => rfl
          | none =>
              rw [orLookup_none, orLookup_none]
              by_cases hk : pv.1 = k
              · have h1 : objLookup [pv] k = some pv.2 := by simp [objLookup, hk]
                rw [objLookup_objSet, if_pos hk.symm, h1, orLookup_some]
              · have h1 : objLookup [pv] k = none := by simp [objLookup, hk]
                have hk' : ¬ k = pv.1 := fun h => hk h.symm
                rw [objLookup_objSet, if_neg hk', h1, orLookup_none]

theorem objLookup_eq_none_of_not_mem_keys (m : StoredState) (k : String)
    (h : k ∉ objKeys m) : objLookup m k = none := by
  induction m with
  | nil => rfl
  | cons p ps ih =>
      simp [objKeys] at h
      have hp : ¬ p.1 = k := fun hh => h.1 hh.symm
      simpa [objLookup, hp] using ih (by simp [objKeys, h.2])

theorem mem_keys_of_objLookup_eq_some (m : StoredState) (k : String) (v : String)
    (h : objLookup m k = some v) : k ∈ objKeys m := by
  induction m with
  | nil => simp [objLookup] at h
  | cons p ps ih =>
      by_cases hp : p.1 = k
      · simp [objKeys, hp]
      · simp only [objLookup, if_neg hp] at h
        have hmem := ih h
        simp only [objKeys, List.map_cons, List.mem_cons]
        exact Or.inr (by simpa [objKeys] using hmem)

/-! ## Poll-loop fragments of the `main` variants

The repository contains several near-duplicate variants of the same poll
loop.  The fragments below embed the loop bodies that the claims are
about; each definition's comment names the variant and lines it is
translated from. -/

/-- Transition detection of the `main` in `src/main.ts` (lines 96-115):
after `storedState = processFetchedValidators(response, storedState)` the
loop iterates `Object.entries(storedState)` and keeps the pubkeys with
`status === "active_ongoing" && storedState[pubkey] !== "active_ongoing"`.
Both sides of the comparison read the same reassigned `storedState`, so
the returned list is the set of pubkeys the variant would try to register
(before the keyshare-payload lookup). -/
def mainTsTransitioned (storedState : StoredState)
    (response : ValidatorResponse) : List String :=
  let s := processFetchedValidators response storedState
  (s.filter (fun p =>
    p.2 = "active_ongoing" ∧ ¬ objLookup s p.1 = some "active_ongoing")).map Prod.fst

/-- Transition detection of the first `main` in `src/unnamed/part_003`
(lines 137-146): `newStoredState = processFetchedValidators(...)` is
diffed against the previous `storedState`, keeping pubkeys with
`status === "active_ongoing" && storedState[pubkey] !== "active_ongoing"`
(an absent previous entry, JS `undefined`, also satisfies `!==`). -/
def activatedValidators (storedState : StoredState)
    (response : ValidatorResponse) : List String :=
  let n := processFetchedValidators response storedState
  (n.filter (fun p =>
    p.2 = "active_ongoing" ∧
      ¬ objLookup storedState p.1 = some "active_ongoing")).map Prod.fst

/-- End-of-cycle termination decision of `src/main.ts` (lines 149-155):
when `filterPendingOnly(storedState).length === 0` the process saves `{}`
and exits with code 0, otherwise the loop continues with the current
store.  The boolean is the exit decision, the state is the store as
persisted at the end of the cycle's termination check. -/
def mainTsCycleEnd (storedState : StoredState) : Bool × StoredState :=
  if (filterPendingOnly storedState).length = 0 then (true, [])
  else (false, storedState)

/-- End-of-cycle termination decision of the second `main` variant in
`src/main.ts` (lines 313-319, also part_003 lines 177-182 and 452-457):
the exit branch fires on `Object.keys(newStoredState).length === 0`,
i.e. on the store being empty, not on the pending set being empty. -/
def variantCycleEnd (storedState : StoredState) : Bool × StoredState :=
  if (objKeys storedState).length = 0 then (true, [])
  else (false, storedState)

/-- CLI seeding of `src/main.ts` (lines 76-81, also part_003 lines
115-120): a seeded pubkey is written as `"pending_queued"` only when
`!storedState.hasOwnProperty(pubkey)`. -/
def seedStoredState (storedState : StoredState) (pubkeys : List String) :
    StoredState :=
  pubkeys.foldl
    (fun acc pk => if objHas acc pk then acc else objSet acc pk "pending_queued")
    storedState

/-- CLI seeding of the second `main` variant in `src/main.ts` (lines
287-293): `exists` is computed with `hasOwnProperty` but only gates the
log line; `storedState[pubkey] = "pending_queued"` runs unconditionally. -/
def seedStoredStateOverwrite (storedState : StoredState)
    (pubkeys : List String) : StoredState :=
  pubkeys.foldl (fun acc pk => objSet acc pk "pending_queued") storedState

/-- Outcome of the `Bun.write` call in `saveValidatorStatuses`
(storage.ts, part_002 lines 27-35).  `Bun.write` returns a promise and
the source does not `await` it: a synchronous throw from the call is
caught by the surrounding `try`, while an asynchronous I/O failure
rejects a floating promise after the function has already returned. -/
inductive WriteResult where
  | success : WriteResult
  | syncError : String → WriteResult
  | asyncError : String → WriteResult
deriving DecidableEq

/-- `saveValidatorStatuses` from storage.ts (part_002 lines 27-35),
parametrized by the outcome of the unawaited `Bun.write` call.  The
`catch` rethrows `Failed to write validators.json: ...` for errors it
observes; an asynchronous rejection is never observed by this function,
which then returns normally. -/
def saveValidatorStatuses (w : WriteResult) : Except String Unit :=
  match w with
  | .success => .ok ()
  | .syncError msg => .error ("Failed to write validators.json: " ++ msg)
  | .asyncError _ => .ok ()

/-! ## Claim theorems -/

/-- C1 (code bug): the edge-trigger claim says a key whose previous
status was `pending_queued` and whose fetched status is `active_ongoing`
must appear exactly once in the transitioned set.  The `main` of
`src/unnamed/part_003` (lines 137-146) satisfies this: diffing the new
state against the previous one yields exactly `["0xaa"]`.  The `main` of
`src/main.ts` (lines 96-115) reassigns `storedState` to the reconciled
state before the diff and then compares that state with itself, so its
transitioned set is empty on the very same input — the freshly activated
key is never registered. -/
theorem c1_edge_trigger_at_bug_input :
    processFetchedValidators
        ⟨false, some [⟨"active_ongoing", some ⟨"0xaa", "123"⟩⟩]⟩
        [("0xaa", "pending_queued")] = [("0xaa", "active_ongoing")] ∧
    activatedValidators [("0xaa", "pending_queued")]
        ⟨false, some [⟨"active_ongoing", some ⟨"0xaa", "123"⟩⟩]⟩ = ["0xaa"] ∧
    mainTsTransitioned [("0xaa", "pending_queued")]
        ⟨false, some [⟨"active_ongoing", some ⟨"0xaa", "123"⟩⟩]⟩ = [] := by
  refine ⟨by decide, by decide, by decide⟩

/-- C2 (code bug): the termination claim says the process exits 0 and
persists `{}` exactly when the pending set is empty after reconciliation.
For the store `{"0xaa": "active_ongoing"}` the pending set is empty;
`src/main.ts` lines 149-155 indeed exit and clear the store, but the
second variant (lines 313-319) tests `Object.keys(newStoredState).length
=== 0` — the store being empty — and therefore keeps looping on this
store instead of exiting. -/
theorem c2_termination_at_bug_input :
    filterPendingOnly [("0xaa", "active_ongoing")] = [] ∧
    mainTsCycleEnd [("0xaa", "active_ongoing")] = (true, []) ∧
    variantCycleEnd [("0xaa", "active_ongoing")] =
      (false, [("0xaa", "active_ongoing")]) := by
  refine ⟨by decide, by decide, by decide⟩

/-- C3 (code bug): the idempotent-seeding claim says seeding a key that
is already stored leaves its status unchanged.  The seeding loop of
`src/main.ts` lines 76-81 does; the second variant (lines 287-293)
computes `exists` but assigns `"pending_queued"` unconditionally, so
seeding `["0xaa"]` over the store `{"0xaa": "active_ongoing"}` downgrades
the recorded status. -/
theorem c3_seeding_at_bug_input :
    seedStoredState [("0xaa", "active_ongoing")] ["0xaa"] =
      [("0xaa", "active_ongoing")] ∧
    seedStoredStateOverwrite [("0xaa", "active_ongoing")] ["0xaa"] =
      [("0xaa", "pending_queued")] := by
  refine ⟨by decide, by decide⟩

/-- C4 (code bug): the claim says a failed store write makes
`saveValidatorStatuses` raise an error that reaches its caller, and that
it returns normally only on success.  The `catch` does rethrow an error
it observes, but `Bun.write` is not awaited: an asynchronous I/O failure
rejects a floating promise and `saveValidatorStatuses` still returns
normally, so the failure never propagates. -/
theorem c4_save_async_failure_not_propagated :
    saveValidatorStatuses (.asyncError "EIO: disk full") = .ok () ∧
    saveValidatorStatuses (.syncError "EIO: disk full") =
      .error "Failed to write validators.json: EIO: disk full" ∧
    saveValidatorStatuses .success = .ok () := by
  refine ⟨rfl, rfl, rfl⟩

/-- C6 (confirmed): reconciliation never deletes a key — every key of the
previous record is still present after `processFetchedValidators`, and a
key not reported by the fetch response keeps exactly its previous
status. -/
theorem c6_process_frame (state : StoredState) (resp : ValidatorResponse)
    (k : String) :
    (objHas state k = true → objHas (processFetchedValidators resp state) k = true) ∧
    (k ∉ fetchedPubkeys resp →
      objLookup (processFetchedValidators resp state) k = objLookup state k) := by
  obtain ⟨b, d⟩ := resp
  cases d with
  | none =>
      constructor
      · intro h
        simpa [processFetchedValidators] using h
      · intro _
        simp [processFetchedValidators]
  | some data =>
      constructor
      · intro h
        have h1 := objLookup_isSome_of_objHas state k h
        apply objHas_of_objLookup_isSome
        rw [objLookup_processFetchedValidators]
        cases hrev : objLookup (fetchedEntries data).reverse k with
        | some v => simp [orLookup_some]
        | none => simpa [orLookup_none] using h1
      · intro h
        rw [objLookup_processFetchedValidators]
        have hnm : k ∉ objKeys (fetchedEntries data).reverse := by
          intro hmem
          apply h
          have hk : k ∈ objKeys (fetchedEntries data) := by
            simpa [objKeys, List.map_reverse, List.mem_reverse] using hmem
          simpa [fetchedPubkeys, objKeys] using hk
        rw [objLookup_eq_none_of_not_mem_keys _ _ hnm, orLookup_none]

/-- Witness for C6 at a concrete cycle: the response reports only
`0xaa`, the key `0xbb` survives reconciliation with its old status and
`0xaa` is still present. -/
theorem c6_process_frame_witness :
    objHas
        (processFetchedValidators
          ⟨false, some [⟨"active_ongoing", some ⟨"0xaa", "123"⟩⟩]⟩
          [("0xaa", "pending_queued"), ("0xbb", "pending_queued")]) "0xaa" = true ∧
    objLookup
        (processFetchedValidators
          ⟨false, some [⟨"active_ongoing", some ⟨"0xaa", "123"⟩⟩]⟩
          [("0xaa", "pending_queued"), ("0xbb", "pending_queued")]) "0xbb" =
      objLookup [("0xaa", "pending_queued"), ("0xbb", "pending_queued")] "0xbb" :=
  ⟨(c6_process_frame [("0xaa", "pending_queued"), ("0xbb", "pending_queued")]
      ⟨false, some [⟨"active_ongoing", some ⟨"0xaa", "123"⟩⟩]⟩ "0xaa").1 (by decide),
   (c6_process_frame [("0xaa", "pending_queued"), ("0xbb", "pending_queued")]
      ⟨false, some [⟨"active_ongoing", some ⟨"0xaa", "123"⟩⟩]⟩ "0xbb").2 (by decide)⟩

/-- C5 counterexample: the claim says an entry with a status string
outside the nine enumerated values is treated as a parse/protocol error
and never silently recorded.  `processFetchedValidators` performs no
status validation at all: a fetched status `"banana"` is written into the
StatusRecord and the cycle proceeds normally. -/
theorem c5_unrecognized_status_recorded :
    objLookup
        (processFetchedValidators
          ⟨false, some [⟨"banana", some ⟨"0xaa", "0"⟩⟩]⟩ []) "0xaa" =
      some "banana" ∧
    "banana" ∉ statusStrings := by
  refine ⟨by decide, by decide⟩

/-- C5 (corrected): `processFetchedValidators` records the raw fetched
status string of every reported key verbatim — the status of the last
response item for that key — whether or not it is one of the nine
enumerated values; no entry is rejected and the cycle never aborts. -/
theorem c5_status_recorded_verbatim (b : Bool) (data : List ValidatorItem)
    (storedState : StoredState) (k s : String)
    (h : objLookup (fetchedEntries data).reverse k = some s) :
    objLookup (processFetchedValidators ⟨b, some data⟩ storedState) k = some s := by
  rw [objLookup_processFetchedValidators, h, orLookup_some]

/-- Witness for C5 at a concrete response carrying the status string
`"unknown_status"`, which is recorded as-is. -/
theorem c5_status_recorded_verbatim_witness :
    objLookup
        (fetchedEntries [⟨"unknown_status", some ⟨"0xbb", "7"⟩⟩]).reverse "0xbb" =
      some "unknown_status" ∧
    objLookup
        (processFetchedValidators
          ⟨true, some [⟨"unknown_status", some ⟨"0xbb", "7"⟩⟩]⟩
          [("0xbb", "pending_queued")]) "0xbb" = some "unknown_status" :=
  ⟨by decide,
   c5_status_recorded_verbatim true [⟨"unknown_status", some ⟨"0xbb", "7"⟩⟩]
     [("0xbb", "pending_queued")] "0xbb" "unknown_status" (by decide)⟩

/-! ## Pubkey validation (`validatePubkey`, part_003 lines 18-27) -/

/-- `String.prototype.toLowerCase` restricted to the ASCII range (the
model covers ASCII input, which is all the hex test can accept). -/
def jsToLowerChar (c : Char) : Char :=
  if 'A' ≤ c ∧ c ≤ 'Z' then Char.ofNat (c.toNat + 32) else c

/-- Whitespace removed by `String.prototype.trim` (ASCII part). -/
def isJsWhitespace (c : Char) : Bool :=
  c == ' ' || c == '\t' || c == '\n' || c == '\r' || c == '\x0b' || c == '\x0c'

/-- `String.prototype.trim`: strip leading and trailing whitespace. -/
def jsTrim (l : List Char) : List Char :=
  ((l.dropWhile isJsWhitespace).reverse.dropWhile isJsWhitespace).reverse

/-- A character matched by the regex character class `[0-9a-f]`. -/
def isLowerHexChar (c : Char) : Bool :=
  decide ('0' ≤ c ∧ c ≤ '9') || decide ('a' ≤ c ∧ c ≤ 'f')

/-- `validatePubkey` from part_003 lines 18-27 (identical in
`src/main.ts` lines 191-200): lowercase, trim, require the prefix `0x`
(`startsWith`), and test the remainder (`substring(2)`) against
`/^[0-9a-f]+$/` — at least one hex character, all characters hex.  No
length requirement appears anywhere. -/
def validatePubkey (pubkey : String) : Bool :=
  let trimmed := jsTrim (pubkey.data.map jsToLowerChar)
  if trimmed.take 2 = ['0', 'x'] then
    let hexPart := trimmed.drop 2
    !hexPart.isEmpty && hexPart.all isLowerHexChar
  else false

/-- The amended C7 acceptance condition, written from the spec side:
after lowercasing and trimming, the candidate is `0x` followed by one or
more lowercase-hex characters — of any length. -/
def validatePubkeySpec (pubkey : String) : Prop :=
  ∃ h : List Char,
    jsTrim (pubkey.data.map jsToLowerChar) = '0' :: 'x' :: h ∧
    h ≠ [] ∧ ∀ c ∈ h, isLowerHexChar c = true

/-- C7 counterexample: the claim says ingestion accepts only 96-hex-char
(98 characters with the `0x` prefix) strings, but `validatePubkey`
accepts `"0xab"`, which has 4 characters. -/
theorem c7_length_not_checked :
    validatePubkey "0xab" = true ∧ ¬ "0xab".data.length = 98 := by
  refine ⟨by decide, by decide⟩

/-- C7 (corrected): `validatePubkey` accepts exactly the strings that,
after lowercasing and trimming, consist of `0x` followed by one or more
hex characters; the 48-byte / 96-hex-char length is not checked, so hex
strings of any nonzero length pass ingestion. -/
theorem c7_validate_pubkey_iff (s : String) :
    validatePubkey s = true ↔ validatePubkeySpec s := by
  have main : ∀ t : List Char,
      ((if t.take 2 = ['0', 'x'] then
          !(t.drop 2).isEmpty && (t.drop 2).all isLowerHexChar
        else false) = true) ↔
        ∃ h : List Char,
          t = '0' :: 'x' :: h ∧ h ≠ [] ∧ ∀ c ∈ h, isLowerHexChar c = true := by
    intro t
    by_cases hp : t.take 2 = ['0', 'x']
    · rw [if_pos hp]
      obtain ⟨h, rfl⟩ : ∃ h, t = '0' :: 'x' :: h := by
        cases t with
        | nil => simp [List.take] at hp
        | cons a t2 =>
            cases t2 with
            | nil => simp [List.take] at hp
            | cons b r =>
                simp [List.take] at hp
                exact ⟨r, by rw [hp.1, hp.2]⟩
      simp [List.all_eq_true, List.isEmpty_iff]
    · rw [if_neg hp]
      simp only [Bool.false_eq_true, false_iff]
      rintro ⟨h, heq, _, _⟩
      exact hp (by rw [heq]; rfl)
  simpa only [validatePubkey, validatePubkeySpec] using
    main (jsTrim (s.data.map jsToLowerChar))

/-! ## Beacon query client (`fetchValidators`, part_004 lines 16-56) -/

/-- Iteration order of a JS `Set` built from a list: first occurrence of
each element, in encounter order (`seen` accumulates what was kept). -/
def dedupAux : List String → List String → List String
  | [], _ => []
  | x :: xs, seen =>
      if x ∈ seen then dedupAux xs seen else x :: dedupAux xs (x :: seen)

/-- `[...new Set(pubkeys)]` from `fetchValidators`. -/
def jsSetDedup (l : List String) : List String := dedupAux l []

/-- The constant `status=` query parameter pushed first. -/
def STATUS_QUERY : String :=
  "status=active_ongoing,active_exiting,active_slashed,exited_unslashed,exited_slashed,withdrawal_possible,withdrawal_done,pending_initialized,pending_queued"

/-- One `id=` query parameter (`ID_PARAM`). -/
def idQueryParam (k : String) : String := "id=" ++ k

/-- The `queryParams` array of `fetchValidators`: the status parameter
followed by one `id=` parameter per element of the deduplicated key
list. -/
def fetchValidatorsQueryParams (pubkeys : List String) : List String :=
  STATUS_QUERY :: (jsSetDedup pubkeys).map idQueryParam

/-- `Array.prototype.join("&")` (`PARAM_DELIMITER`). -/
def joinAmp : List String → String
  | [] => ""
  | [x] => x
  | x :: xs => x ++ "&" ++ joinAmp xs

/-- `fetchValidators` up to the point where the request is issued: the
empty-key guard throws before any query parameter or URL is built; the
success value is the request URL sent over the network.  The actual
`fetch` I/O and response handling are external effects not modelled
here. -/
def fetchValidatorsRequest (baseUrl : String) (pubkeys : List String) :
    Except String String :=
  if pubkeys.length = 0 then .error "No pubkeys provided for fetch"
  else
    .ok (baseUrl ++ "/eth/v1/beacon/states/head/validators?" ++
      joinAmp (fetchValidatorsQueryParams pubkeys))

theorem mem_dedupAux (x : String) (l seen : List String) :
    x ∈ dedupAux l seen ↔ x ∈ l ∧ x ∉ seen := by
  induction l generalizing seen with
  | nil => simp [dedupAux]
  | cons a as ih =>
      by_cases ha : a ∈ seen
      · rw [dedupAux, if_pos ha, ih]
        constructor
        · rintro ⟨h1, h2⟩
          exact ⟨List.mem_cons_of_mem a h1, h2⟩
        · rintro ⟨h1, h2⟩
          rcases List.mem_cons.1 h1 with rfl | h1
          · exact absurd ha h2
          · exact ⟨h1, h2⟩
      · rw [dedupAux, if_neg ha]
        simp only [List.mem_cons, ih, List.mem_cons]
        constructor
        · rintro (rfl | ⟨h1, h2⟩)
          · exact ⟨Or.inl rfl, ha⟩
          · exact ⟨Or.inr h1, fun hx => h2 (Or.inr hx)⟩
        · rintro ⟨rfl | h1, h2⟩
          · exact Or.inl rfl
          · by_cases hxa : x = a
            · exact Or.inl hxa
            · exact Or.inr ⟨h1, fun hx => (hx.elim hxa h2)⟩

theorem nodup_dedupAux (l seen : List String) : (dedupAux l seen).Nodup := by
  induction l generalizing seen with
  | nil => simp [dedupAux]
  | cons a as ih =>
      by_cases ha : a ∈ seen
      · rw [dedupAux, if_pos ha]
        exact ih seen
      · rw [dedupAux, if_neg ha]
        refine List.nodup_cons.2 ⟨?_, ih (a :: seen)⟩
        intro hmem
        exact ((mem_dedupAux a as (a :: seen)).1 hmem).2 (List.mem_cons_self a seen)

theorem dedupAux_eq_self (l seen : List String) (hl : l.Nodup)
    (hd : ∀ x ∈ l, x ∉ seen) : dedupAux l seen = l := by
  induction l generalizing seen with
  | nil => rfl
  | cons a as ih =>
      rw [dedupAux, if_neg (hd a (List.mem_cons_self a as))]
      congr 1
      refine ih (a :: seen) (List.nodup_cons.1 hl).2 ?_
      intro x hx hmem
      rcases List.mem_cons.1 hmem with rfl | hmem
      · exact (List.nodup_cons.1 hl).1 hx
      · exact hd x (List.mem_cons_of_mem a hx) hmem

theorem jsSetDedup_idem (l : List String) :
    jsSetDedup (jsSetDedup l) = jsSetDedup l :=
  dedupAux_eq_self _ _ (nodup_dedupAux l []) (by simp)

theorem mem_jsSetDedup (x : String) (l : List String) :
    x ∈ jsSetDedup l ↔ x ∈ l := by
  simpa [jsSetDedup] using mem_dedupAux x l []

theorem jsSetDedup_eq_nil_iff (l : List String) : jsSetDedup l = [] ↔ l = [] := by
  cases l with
  | nil => simp [jsSetDedup, dedupAux]
  | cons a as => simp [jsSetDedup, dedupAux]

theorem idQueryParam_injective : Function.Injective idQueryParam := by
  intro a b h
  have hd : (idQueryParam a).data = (idQueryParam b).data := congrArg String.data h
  simp only [idQueryParam, String.data_append] at hd
  exact String.ext (List.append_cancel_left hd)

theorem idQueryParam_ne_status (k : String) : ¬ idQueryParam k = STATUS_QUERY := by
  intro h
  have hd : (idQueryParam k).data.headD ' ' = STATUS_QUERY.data.headD ' ' :=
    congrArg (fun l => List.headD l ' ') (congrArg String.data h)
  have h1 : (idQueryParam k).data.headD ' ' = 'i' := by
    show (("id=" ++ k)).data.headD ' ' = 'i'
    rw [String.data_append]
    rfl
  have h2 : STATUS_QUERY.data.headD ' ' = 's' := by decide
  rw [h1, h2] at hd
  cases hd

/-- C9 (confirmed): for a non-empty key list the query contains exactly
one `id=` parameter per distinct key — repeated keys never inflate the
request — and the request built from a list with duplicates equals the
request built from its list of unique keys. -/
theorem c9_query_dedup (baseUrl : String) (pubkeys : List String) (k : String)
    (h : pubkeys ≠ []) :
    (fetchValidatorsQueryParams pubkeys).count (idQueryParam k) =
      (if k ∈ pubkeys then 1 else 0) ∧
    fetchValidatorsRequest baseUrl pubkeys =
      fetchValidatorsRequest baseUrl (jsSetDedup pubkeys) := by
  constructor
  · have hne : (STATUS_QUERY == idQueryParam k) = false := by
      rw [beq_eq_false_iff_ne]
      exact fun hh => idQueryParam_ne_status k hh.symm
    rw [fetchValidatorsQueryParams, List.count_cons, hne,
        List.count_map_of_injective _ _ idQueryParam_injective]
    simp only [Bool.false_eq_true, if_false, Nat.add_zero]
    have hnd : (jsSetDedup pubkeys).Nodup := nodup_dedupAux pubkeys []
    by_cases hk : k ∈ pubkeys
    · rw [if_pos hk,
        List.count_eq_one_of_mem hnd ((mem_jsSetDedup k pubkeys).2 hk)]
    · rw [if_neg hk,
        List.count_eq_zero.2 (fun hm => hk ((mem_jsSetDedup k pubkeys).1 hm))]
  · have h1 : ¬ pubkeys.length = 0 := by
      cases pubkeys with
      | nil => exact absurd rfl h
      | cons a as => simp
    have h2 : ¬ (jsSetDedup pubkeys).length = 0 := by
      intro h0
      exact h ((jsSetDedup_eq_nil_iff pubkeys).1 (List.length_eq_zero.1 h0))
    rw [fetchValidatorsRequest, fetchValidatorsRequest, if_neg h1, if_neg h2,
        fetchValidatorsQueryParams, fetchValidatorsQueryParams, jsSetDedup_idem]

/-- Witness for C9: the duplicate-carrying list `["0xaa","0xaa","0xbb"]`
produces exactly one `id=0xaa` parameter and the same request as its
deduplicated form. -/
theorem c9_query_dedup_witness :
    (fetchValidatorsQueryParams ["0xaa", "0xaa", "0xbb"]).count
        (idQueryParam "0xaa") = 1 ∧
    fetchValidatorsRequest "http://node" ["0xaa", "0xaa", "0xbb"] =
      fetchValidatorsRequest "http://node" (jsSetDedup ["0xaa", "0xaa", "0xbb"]) :=
  ⟨((c9_query_dedup "http://node" ["0xaa", "0xaa", "0xbb"] "0xaa"
      (by decide)).1).trans (by decide),
   (c9_query_dedup "http://node" ["0xaa", "0xaa", "0xbb"] "0xaa" (by decide)).2⟩

/-- C10 (confirmed): `fetchValidators` fails with the guard error exactly
on the empty key list, and a request URL is constructed exactly when the
key list is non-empty — the guard throws before any query parameter or
URL exists, hence before any network I/O. -/
theorem c10_empty_keys_rejected (baseUrl : String) (pubkeys : List String) :
    (fetchValidatorsRequest baseUrl pubkeys =
        .error "No pubkeys provided for fetch" ↔ pubkeys = []) ∧
    ((∃ url, fetchValidatorsRequest baseUrl pubkeys = .ok url) ↔ pubkeys ≠ []) := by
  cases pubkeys with
  | nil =>
      refine ⟨⟨fun _ => rfl, fun _ => rfl⟩, ?_⟩
      constructor
      · rintro ⟨url, hurl⟩
        rw [fetchValidatorsRequest] at hurl
        simp at hurl
      · intro hne
        exact absurd rfl hne
  | cons a as =>
      have h1 : ¬ (a :: as).length = 0 := by simp
      refine ⟨?_, ?_⟩
      · rw [fetchValidatorsRequest, if_neg h1]
        simp
      · constructor
        · intro _
          simp
        · intro _
          exact ⟨_, by rw [fetchValidatorsRequest, if_neg h1]⟩

/-! ## Persisted store content (`JSON.stringify` / `JSON.parse`,
part_002 lines 10-35)

`saveValidatorStatuses` writes `JSON.stringify(statuses, null, 2)` to
`validators.json`; `loadValidatorStatuses` reads the file text back and
runs `JSON.parse` on it.  The store is a flat JSON object whose values
are strings, so the builtins are modelled on that fragment:
`jsonStringify` produces exactly the 2-space pretty-printed text of such
an object (faithful as long as no key or value needs JSON string
escaping), and `parseJsonObject` is a recursive-descent parser for JSON
objects with string members (arbitrary interleaving whitespace, no
escape sequences). -/

/-- The four JSON whitespace characters. -/
def isJsonWs (c : Char) : Bool :=
  c == ' ' || c == '\n' || c == '\r' || c == '\t'

/-- Drop leading JSON whitespace. -/
def skipWs : List Char → List Char
  | [] => []
  | c :: cs => if isJsonWs c then skipWs cs else c :: cs

/-- The characters of one pretty-printed member line (2-space indent):
`  "key": "value"`. -/
def renderEntryChars (p : String × String) : List Char :=
  [' ', ' ', '"'] ++ p.1.data ++ ['"', ':', ' ', '"'] ++ p.2.data ++ ['"']

/-- Join the member lines with `,` and a newline. -/
def joinCommaChars : List (List Char) → List Char
  | [] => []
  | [x] => x
  | x :: xs => x ++ [',', '\n'] ++ joinCommaChars xs

/-- `JSON.stringify(statuses, null, 2)` — the exact file content that
`saveValidatorStatuses` hands to `Bun.write`. -/
def jsonStringify (m : StoredState) : String :=
  if m = [] then "\x7b\x7d"
  else ⟨['\x7b', '\n'] ++ joinCommaChars (m.map renderEntryChars) ++ ['\n', '\x7d']⟩

/-- Body of a JSON string after its opening quote: the content up to the
closing quote and the remaining input.  Escape sequences are outside the
modelled fragment and fail. -/
def parseStrBody : List Char → Option (List Char × List Char)
  | [] => none
  | c :: cs =>
      if c = '"' then some ([], cs)
      else if c = '\\' then none
      else
        match parseStrBody cs with
        | some (s, rest) => some (c :: s, rest)
        | none => none

/-- The member list of a JSON object after its opening brace: one
`"key": "value"` member, then either `,` and further members or the
closing brace.  `fuel` bounds the recursion (any value at least the
number of members suffices). -/
def parseMembers : Nat → List Char → Option (List (String × String) × List Char)
  | 0, _ => none
  | fuel + 1, cs =>
      match skipWs cs with
      | [] => none
      | c :: rest =>
          if c = '"' then
            match parseStrBody rest with
            | none => none
            | some (k, rest1) =>
                match skipWs rest1 with
                | [] => none
                | c2 :: rest2 =>
                    if c2 = ':' then
                      match skipWs rest2 with
                      | [] => none
                      | c3 :: rest3 =>
                          if c3 = '"' then
                            match parseStrBody rest3 with
                            | none => none
                            | some (v, rest4) =>
                                match skipWs rest4 with
                                | [] => none
                                | c4 :: rest5 =>
                                    if c4 = ',' then
                                      match parseMembers fuel rest5 with
                                      | some (ms, rest6) =>
                                          some ((⟨k⟩, ⟨v⟩) :: ms, rest6)
                                      | none => none
                                    else if c4 = '\x7d' then
                                      some ([(⟨k⟩, ⟨v⟩)], rest5)
                                    else none
                          else none
                    else none
          else none

/-- `JSON.parse` on the store's schema: a single JSON object with string
values, surrounded by optional whitespace, nothing after it. -/
def parseJsonObject (s : String) : Option (List (String × String)) :=
  match skipWs s.data with
  | [] => none
  | c :: rest =>
      if c = '\x7b' then
        match skipWs rest with
        | [] => none
        | d :: rest2 =>
            if d = '\x7d' then if skipWs rest2 = [] then some [] else none
            else
              match parseMembers (rest.length + 1) rest with
              | some (ms, rest3) => if skipWs rest3 = [] then some ms else none
              | none => none
      else none

/-- `loadValidatorStatuses` from storage.ts (part_002 lines 10-25):
`content = none` embeds a missing or unreadable file, which yields the
empty record, as does any parse failure (the `catch` logs and returns
`{}`; the `data || {}` fallback is folded into the failure branch). -/
def loadValidatorStatuses (content : Option String) : StoredState :=
  match content with
  | none => []
  | some text =>
      match parseJsonObject text with
      | some data => data
      | none => []

/-- A character that `JSON.stringify` emits unescaped inside a string. -/
def jsonSafeChar (c : Char) : Bool :=
  !(c == '"') && !(c == '\\') && decide (32 ≤ c.toNat)

/-- A string serialized without escape sequences. -/
def jsonSafeString (s : String) : Bool := s.data.all jsonSafeChar

/-- A store whose keys and values all serialize without escapes — true
of every valid StatusRecord (hex pubkeys, enum status strings). -/
def wellFormedStore (m : StoredState) : Bool :=
  m.all (fun p => jsonSafeString p.1 && jsonSafeString p.2)

theorem safe_chars_of_jsonSafeString (s : String) (h : jsonSafeString s = true) :
    ∀ c ∈ s.data, ¬ c = '"' ∧ ¬ c = '\\' := by
  intro c hc
  have hcc := (List.all_eq_true.1 h) c hc
  simp only [jsonSafeChar, Bool.and_eq_true, Bool.not_eq_true', beq_eq_false_iff_ne,
    ne_eq] at hcc
  exact ⟨hcc.1.1, hcc.1.2⟩

theorem parseStrBody_append (s rest : List Char)
    (h : ∀ c ∈ s, ¬ c = '"' ∧ ¬ c = '\\') :
    parseStrBody (s ++ '"' :: rest) = some (s, rest) := by
  induction s with
  | nil => simp [parseStrBody]
  | cons c cs ih =>
      have hc := h c (List.mem_cons_self c cs)
      have ih2 := ih (fun d hd => h d (List.mem_cons_of_mem c hd))
      simp [parseStrBody, hc.1, hc.2, ih2]

theorem renderEntryChars_append (e : String × String) (tail : List Char) :
    renderEntryChars e ++ tail =
      ' ' :: ' ' :: '"' ::
        (e.1.data ++ '"' :: ':' :: ' ' :: '"' :: (e.2.data ++ '"' :: tail)) := by
  simp [renderEntryChars]

theorem parseMembers_cons_ws (f : Nat) (c : Char) (cs : List Char)
    (h : isJsonWs c = true) :
    parseMembers (f + 1) (c :: cs) = parseMembers (f + 1) cs := by
  have hskip : skipWs (c :: cs) = skipWs cs := by
    simp [skipWs, h]
  simp only [parseMembers, hskip]

theorem le_length_joinCommaChars (entries : List (String × String)) :
    entries.length ≤ (joinCommaChars (entries.map renderEntryChars)).length := by
  induction entries with
  | nil => simp [joinCommaChars]
  | cons e tl ih =>
      have hx : 1 ≤ (renderEntryChars e).length := by
        simp [renderEntryChars]
      cases tl with
      | nil =>
          simpa [joinCommaChars] using hx
      | cons e2 tl2 =>
          simp only [List.map_cons, joinCommaChars, List.length_append,
            List.length_cons] at ih ⊢
          omega

/-- Parsing one pretty-printed member consumes exactly the member and
leaves the control character (`,` or the closing brace) decision. -/
theorem parseMembers_step (f : Nat) (k v : String) (tail : List Char)
    (hk : ∀ c ∈ k.data, ¬ c = '"' ∧ ¬ c = '\\')
    (hv : ∀ c ∈ v.data, ¬ c = '"' ∧ ¬ c = '\\') :
    parseMembers (f + 1)
        (' ' :: ' ' :: '"' ::
          (k.data ++ '"' :: ':' :: ' ' :: '"' :: (v.data ++ '"' :: tail))) =
      match skipWs tail with
      | [] => none
      | c4 :: rest5 =>
          if c4 = ',' then
            match parseMembers f rest5 with
            | some (ms, rest6) => some ((k, v) :: ms, rest6)
            | none => none
          else if c4 = '\x7d' then some ([(k, v)], rest5)
          else none := by
  have h1 := parseStrBody_append k.data
    (':' :: ' ' :: '"' :: (v.data ++ '"' :: tail)) hk
  have h2 := parseStrBody_append v.data tail hv
  simp [parseMembers, skipWs, isJsonWs, h1, h2]

theorem parseMembers_render (entries : List (String × String)) :
    ∀ (rest : List Char) (fuel : Nat), entries.length ≤ fuel → entries ≠ [] →
      (∀ p ∈ entries, jsonSafeString p.1 = true ∧ jsonSafeString p.2 = true) →
      parseMembers fuel
          (joinCommaChars (entries.map renderEntryChars) ++
            '\n' :: '\x7d' :: rest) =
        some (entries, rest) := by
  induction entries with
  | nil =>
      intro rest fuel _ hne _
      exact absurd rfl hne
  | cons e tl ih =>
      intro rest fuel hfuel _ hwf
      obtain ⟨f, rfl⟩ : ∃ f, fuel = f + 1 := by
        refine ⟨fuel - 1, ?_⟩
        have : 1 ≤ fuel := le_trans (by simp) hfuel
        omega
      have hwfe := hwf e (List.mem_cons_self e tl)
      have hsafe1 := safe_chars_of_jsonSafeString e.1 hwfe.1
      have hsafe2 := safe_chars_of_jsonSafeString e.2 hwfe.2
      cases tl with
      | nil =>
          have hinput :
              joinCommaChars ([e].map renderEntryChars) ++ '\n' :: '\x7d' :: rest =
                ' ' :: ' ' :: '"' ::
                  (e.1.data ++ '"' :: ':' :: ' ' :: '"' ::
                    (e.2.data ++ '"' :: '\n' :: '\x7d' :: rest)) := by
            simp only [List.map_cons, List.map_nil, joinCommaChars]
            exact renderEntryChars_append e ('\n' :: '\x7d' :: rest)
          rw [hinput, parseMembers_step f e.1 e.2 ('\n' :: '\x7d' :: rest) hsafe1 hsafe2]
          simp [skipWs, isJsonWs]
      | cons e2 tl2 =>
          have hlen : (e2 :: tl2).length ≤ f := by
            simp only [List.length_cons] at hfuel ⊢
            omega
          obtain ⟨f2, rfl⟩ : ∃ f2, f = f2 + 1 := by
            refine ⟨f - 1, ?_⟩
            have : 1 ≤ f := le_trans (by simp) hlen
            omega
          have hrec := ih rest (f2 + 1) hlen (by simp)
            (fun p hp => hwf p (List.mem_cons_of_mem e hp))
          have hinput :
              joinCommaChars ((e :: e2 :: tl2).map renderEntryChars) ++
                  '\n' :: '\x7d' :: rest =
                ' ' :: ' ' :: '"' ::
                  (e.1.data ++ '"' :: ':' :: ' ' :: '"' ::
                    (e.2.data ++ '"' :: ',' :: '\n' ::
                      (joinCommaChars ((e2 :: tl2).map renderEntryChars) ++
                        '\n' :: '\x7d' :: rest))) := by
            simp only [List.map_cons, joinCommaChars, List.append_assoc,
              List.cons_append, List.nil_append]
            exact renderEntryChars_append e _
          rw [hinput, parseMembers_step (f2 + 1) e.1 e.2
            (',' :: '\n' ::
              (joinCommaChars ((e2 :: tl2).map renderEntryChars) ++
                '\n' :: '\x7d' :: rest)) hsafe1 hsafe2]
          have hskip := parseMembers_cons_ws f2 '\n'
            (joinCommaChars ((e2 :: tl2).map renderEntryChars) ++
              '\n' :: '\x7d' :: rest) (by decide)
          have hsw : skipWs
              (',' :: '\n' ::
                (joinCommaChars ((e2 :: tl2).map renderEntryChars) ++
                  '\n' :: '\x7d' :: rest)) =
              ',' :: '\n' ::
                (joinCommaChars ((e2 :: tl2).map renderEntryChars) ++
                  '\n' :: '\x7d' :: rest) := by
            simp [skipWs, isJsonWs]
          rw [hsw]
          simp only [List.map_cons] at hskip hrec
          simp [hskip, hrec]

/-- C8 (confirmed): writing a well-formed store with
`saveValidatorStatuses` (whose successful write puts exactly
`jsonStringify m` on disk) and loading it back with
`loadValidatorStatuses` returns the same mapping. -/
theorem c8_store_round_trip (m : StoredState) (h : wellFormedStore m = true) :
    loadValidatorStatuses (some (jsonStringify m)) = m := by
  cases m with
  | nil => decide
  | cons e tl =>
      have hne : ¬ (e :: tl) = ([] : StoredState) := by simp
      have hwf : ∀ p ∈ e :: tl, jsonSafeString p.1 = true ∧ jsonSafeString p.2 = true := by
        intro p hp
        have hpp := (List.all_eq_true.1 h) p hp
        simpa using hpp
      have hstr : jsonStringify (e :: tl) =
          ⟨'\x7b' :: '\n' ::
            (joinCommaChars ((e :: tl).map renderEntryChars) ++
              '\n' :: '\x7d' :: [])⟩ := by
        rw [jsonStringify, if_neg hne]
        exact congrArg String.mk (by simp)
      have hshape : ∃ Z,
          joinCommaChars ((e :: tl).map renderEntryChars) ++
              '\n' :: '\x7d' :: ([] : List Char) = ' ' :: ' ' :: '"' :: Z := by
        cases tl with
        | nil =>
            refine ⟨e.1.data ++ '"' :: ':' :: ' ' :: '"' ::
              (e.2.data ++ '"' :: '\n' :: '\x7d' :: []), ?_⟩
            simp only [List.map_cons, List.map_nil, joinCommaChars]
            exact renderEntryChars_append e _
        | cons e2 tl2 =>
            refine ⟨e.1.data ++ '"' :: ':' :: ' ' :: '"' ::
              (e.2.data ++ '"' :: ',' :: '\n' ::
                (joinCommaChars ((e2 :: tl2).map renderEntryChars) ++
                  '\n' :: '\x7d' :: [])), ?_⟩
            simp only [List.map_cons, joinCommaChars, List.append_assoc,
              List.cons_append, List.nil_append]
            exact renderEntryChars_append e _
      obtain ⟨Z, hZ⟩ := hshape
      have hb := le_length_joinCommaChars (e :: tl)
      rw [hstr]
      simp only [loadValidatorStatuses]
      have hrender0 := parseMembers_render (e :: tl)
      generalize hjoin : joinCommaChars ((e :: tl).map renderEntryChars) = J at hb hZ ⊢
      have hfuel : (e :: tl).length ≤ J.length + 2 + 1 + 1 := by
        simp only [List.length_cons] at hb ⊢
        omega
      have hrender := hrender0 [] (J.length + 2 + 1 + 1) hfuel hne hwf
      rw [hjoin] at hrender
      have hpj : parseJsonObject
          (⟨'\x7b' :: '\n' :: (J ++ '\n' :: '\x7d' :: [])⟩ : String) =
            some (e :: tl) := by
        rw [parseJsonObject]
        have hsw1 : skipWs ('\x7b' :: '\n' :: (J ++ '\n' :: '\x7d' :: [])) =
            '\x7b' :: '\n' :: (J ++ '\n' :: '\x7d' :: []) := by
          simp [skipWs, isJsonWs]
        have hsw2 : skipWs ('\n' :: (J ++ '\n' :: '\x7d' :: [])) = '"' :: Z := by
          rw [show skipWs ('\n' :: (J ++ '\n' :: '\x7d' :: [])) =
              skipWs (J ++ '\n' :: '\x7d' :: []) from by simp [skipWs, isJsonWs],
            hZ]
          simp [skipWs, isJsonWs]
        have hskipn := parseMembers_cons_ws (J.length + 2 + 1) '\n'
          (J ++ '\n' :: '\x7d' :: []) (by decide)
        rw [show (⟨'\x7b' :: '\n' :: (J ++ '\n' :: '\x7d' :: [])⟩ : String).data =
            '\x7b' :: '\n' :: (J ++ '\n' :: '\x7d' :: []) from rfl, hsw1]
        have hnil : skipWs ([] : List Char) = [] := rfl
        simp [hsw2, hskipn, hrender, hnil]
      rw [hpj]

/-- Witness for C8 at a concrete two-key store. -/
theorem c8_store_round_trip_witness :
    wellFormedStore
        [("0xabc", "pending_queued"), ("0xdef", "active_ongoing")] = true ∧
    loadValidatorStatuses
        (some (jsonStringify
          [("0xabc", "pending_queued"), ("0xdef", "active_ongoing")])) =
      [("0xabc", "pending_queued"), ("0xdef", "active_ongoing")] :=
  ⟨by decide,
   c8_store_round_trip [("0xabc", "pending_queued"), ("0xdef", "active_ongoing")]
     (by decide)⟩

end BeaconMonitor
